import Mathlib

/-!
# Verification of the Nuxt core assembly engine specification

This file gives a shallow embedding, in Lean 4, of the parts of the Nuxt
core (`packages/nuxt/src/core/app.ts`, `packages/nuxt/src/core/nuxt.ts`
and the pages module) that the specification's claims are about, and
proves or refutes each claim against that embedding.

Conventions:
* JavaScript objects become structures; `undefined`-able fields become
  `Option` types.
* JavaScript `Record` objects (used as maps) become association lists
  whose update keeps the original key-insertion order, mirroring the
  iteration order of `for ... in`.
* Console/logger output is modelled by returning the list of emitted
  diagnostics alongside the computed value.
-/

namespace Nuxt

/-! ## Pages module: `isPagesEnabled` (pages module setup)

`isPagesEnabled` decides whether the pages integration is enabled.  The
source consults, in order: the user's explicit `pages` boolean, the
non-optional `app/router.options` files, whether any layer's pages
directory is non-empty, and finally the resolved page routes. -/

/-- A router-options file entry `{ path, optional? }` as built by
`resolveRouterOptions`; a missing `optional` flag reads as `false`. -/
structure RouterOptionsFile where
  path : String
  optional : Bool := false
deriving Repr, DecidableEq

/-- A node of the page tree (`NuxtPage`): route path, source file and
nested children.  `meta`/`name`/`mode` are irrelevant to the claims. -/
inductive NuxtPage where
  | mk (path : String) (file : Option String) (children : List NuxtPage)

/-- Route-path component of a page node. -/
def NuxtPage.path : NuxtPage → String
  | .mk p _ _ => p

/-- Source-file component of a page node. -/
def NuxtPage.file : NuxtPage → Option String
  | .mk _ f _ => f

/-- Children of a page node. -/
def NuxtPage.children : NuxtPage → List NuxtPage
  | .mk _ _ c => c

/-! ### String primitives

The string functions the sources use (`startsWith`, `endsWith`,
`includes`, `split`, slicing, lower-casing) are defined here over the
string's character list, with the same meaning as the library versions,
so that concrete runs of the models reduce inside proofs. -/

/-- `p` is an initial run of `s` (both as character lists). -/
def charsLead : List Char → List Char → Bool
  | _, [] => true
  | [], _ :: _ => false
  | a :: s, b :: p => a == b && charsLead s p

/-- `s.startsWith(p)`. -/
def strStartsWith (s p : String) : Bool :=
  charsLead s.toList p.toList

/-- `s.endsWith(p)`. -/
def strEndsWith (s p : String) : Bool :=
  charsLead s.toList.reverse p.toList.reverse

/-- `s.includes(c)` for a single character. -/
def strContainsChar (s : String) (c : Char) : Bool :=
  s.toList.contains c

/-- `s.slice(n)`: drop the first `n` characters. -/
def strDrop (s : String) (n : Nat) : String :=
  String.mk (s.toList.drop n)

/-- Drop the last `n` characters. -/
def strDropRight (s : String) (n : Nat) : String :=
  String.mk (s.toList.take (s.toList.length - n))

/-- Lower-case every character. -/
def strToLower (s : String) : String :=
  String.mk (s.toList.map Char.toLower)

/-- `s.split(c)` on a one-character separator. -/
def splitOnChar (c : Char) (s : String) : List String :=
  (s.toList.foldr
    (fun a acc =>
      match acc with
      | [] => [[a]]
      | cur :: rest => if a = c then [] :: cur :: rest else (a :: cur) :: rest)
    [[]]).map (fun l => String.mk l)

/-- `parts.join(sep)`. -/
def joinWith (sep : String) : List String → String
  | [] => ""
  | [x] => x
  | x :: xs => x ++ sep ++ joinWith sep xs

/-- `isPagesEnabled` from the pages module setup.  The user preference
(`nuxt.options.pages`) is `some b` when the configuration sets an
explicit boolean and `none` otherwise.  The three data sources the
fallback chain consults are passed in explicitly: the resolved
router-options files, whether some layer's pages directory exists and is
non-empty, and the resolved page routes (after the `pages:extend`
hook). -/
def isPagesEnabled (userPreference : Option Bool)
    (routerOptionsFiles : List RouterOptionsFile)
    (somePagesDirNonEmpty : Bool) (pages : List NuxtPage) : Bool :=
  match userPreference with
  | some b => b
  | none =>
    if (routerOptionsFiles.filter (fun p => !p.optional)).length > 0 then
      true
    else if somePagesDirNonEmpty then
      true
    else if pages.length > 0 then
      true
    else
      false

/-! ## Plugin graph orderer: `annotatePlugins` (app.ts, lines 207–228) -/

/-- Modelled from the spec: `orderMap.default`, the fixed neutral order
constant from `core/plugins/plugin-metadata` (that module is not among
the provided sources); an unspecified plugin order defaults to it. -/
def orderMapDefault : Int := 0

/-- A plugin descriptor after metadata annotation
(`NuxtPlugin & Omit<PluginMeta, 'enforce'>`): optional name, optional
numeric order key, declared dependency names, and the resolved source
path. -/
structure PluginAnn where
  src : String := ""
  name : Option String := none
  order : Option Int := none
  dependsOn : List String := []
deriving Repr, DecidableEq

/-- The sort key used by `annotatePlugins`: `a.order ?? orderMap.default`. -/
def pluginOrderKey (p : PluginAnn) : Int :=
  p.order.getD orderMapDefault

/-- The comparator relation of
`_plugins.sort((a, b) => (a.order ?? orderMap.default) - (b.order ?? orderMap.default))`. -/
def pluginLE (a b : PluginAnn) : Prop :=
  pluginOrderKey a ≤ pluginOrderKey b

instance : DecidableRel pluginLE := fun a b => Int.decLe _ _

instance : IsTotal PluginAnn pluginLE := ⟨fun a b => Int.le_total _ _⟩

instance : IsTrans PluginAnn pluginLE := ⟨fun _ _ _ => Int.le_trans⟩

/-- `annotatePlugins` (the ordering part): ECMAScript `Array.prototype.sort`
is a stable sort, and a stable sort with respect to a total preorder is
uniquely determined, so it is modelled by a stable insertion sort keyed
on `order ?? orderMap.default`.  Metadata extraction (`extractMetadata`)
only fills in fields the plugin object does not already carry; the
function here receives the already-annotated descriptors. -/
def annotatePlugins (plugins : List PluginAnn) : List PluginAnn :=
  List.insertionSort pluginLE plugins

/-! ## Virtual artifact store and `generateApp` (app.ts, lines 23–90)

`nuxt.vfs` is a string-keyed record of generated file contents.  It is
modelled as an association list whose update keeps key order. -/

/-- Look a path up in the vfs (`nuxt.vfs[path]`); `none` models
`undefined`. -/
def vfsFind (vfs : List (String × String)) (p : String) : Option String :=
  (vfs.find? (fun kv => kv.1 == p)).map Prod.snd

/-- Store contents under a path (`nuxt.vfs[path] = contents`),
overwriting any previous entry for that key. -/
def vfsSet (vfs : List (String × String)) (p c : String) : List (String × String) :=
  if vfs.any (fun kv => kv.1 == p) then
    vfs.map (fun kv => if kv.1 == p then (p, c) else kv)
  else
    vfs ++ [(p, c)]

/-- A normalized template descriptor (`ResolvedNuxtTemplate`): output
filename, optional explicit destination, write-to-disk flag. -/
structure ResolvedTemplate where
  filename : String
  dst : Option String := none
  write : Bool := false
deriving Repr, DecidableEq

/-- `resolve(base, p)` from `pathe`, for the shapes that occur here: an
already-absolute `p` is returned as is, otherwise it is joined onto the
absolute base. -/
def resolvePathe (base p : String) : String :=
  if strStartsWith p "/" then p else base ++ "/" ++ p

/-- `template.dst || resolve(nuxt.options.buildDir, template.filename)`. -/
def templateFullPath (buildDir : String) (t : ResolvedTemplate) : String :=
  t.dst.getD (resolvePathe buildDir t.filename)

/-- A character matched by the regex class `\w`. -/
def isWordChar (c : Char) : Bool :=
  c.isAlphanum || c == '_'

/-- `filename.replace(/\.\w+$/, '')`: strip a final dot-plus-word-chars
extension, if present. -/
def stripLastExt (s : String) : String :=
  let rev := s.toList.reverse
  let w := rev.takeWhile isWordChar
  if w.isEmpty then s
  else
    match rev.drop w.length with
    | '.' :: rest => String.mk rest.reverse
    | _ => s

/-- The vfs alias key `'#build/' + template.filename.replace(/\.\w+$/, '')`. -/
def aliasPath (t : ResolvedTemplate) : String :=
  "#build/" ++ stripLastExt t.filename

/-- The state one generation pass threads through the templates: the
vfs, the per-template `modified` flags, and the queued physical writes
(path, contents). -/
structure GenPass where
  vfs : List (String × String)
  results : List (ResolvedTemplate × Bool) := []
  writes : List (String × String) := []
deriving Repr, DecidableEq

/-- One iteration of the template loop in `generateApp`: read the old
vfs contents at the template's full path, compile, set
`modified = oldContents !== contents`, and if modified store the new
contents under the full path and the `#build/` alias and (when
`template.write`) queue a physical write.  (The `win32` alias branch is
platform-specific and not modelled.) -/
def generateStep (compile : ResolvedTemplate → String) (buildDir : String)
    (st : GenPass) (t : ResolvedTemplate) : GenPass :=
  let fullPath := templateFullPath buildDir t
  let oldContents := vfsFind st.vfs fullPath
  let contents := compile t
  let modified := oldContents != some contents
  let vfs' :=
    if modified then vfsSet (vfsSet st.vfs fullPath contents) (aliasPath t) contents
    else st.vfs
  let writes' :=
    if modified && t.write then st.writes ++ [(fullPath, contents)]
    else st.writes
  { vfs := vfs', results := st.results ++ [(t, modified)], writes := writes' }

/-- `generateApp` restricted to its template-compilation pass: fold the
per-template step over the (already filtered) templates, starting from
the current vfs, producing the new vfs, the `modified` flags, and the
batch of physical writes performed at the end of the pass.  `compile`
abstracts `compileTemplate` for the current pass. -/
def generateApp (compile : ResolvedTemplate → String) (buildDir : String)
    (vfs : List (String × String)) (templates : List ResolvedTemplate) : GenPass :=
  templates.foldl (generateStep compile buildDir) { vfs := vfs }

/-! ## Cycle detection: `checkForCircularDependencies` (app.ts, lines 230–254) -/

/-- `deps[k] = v` on a plain JS object: overwrite in place if the key
exists, otherwise append (preserving `for ... in` insertion order). -/
def recordSet (m : List (String × List String)) (k : String) (v : List String) :
    List (String × List String) :=
  if m.any (fun kv => kv.1 == k) then
    m.map (fun kv => if kv.1 == k then (k, v) else kv)
  else
    m ++ [(k, v)]

/-- `deps[k]` on a plain JS object; `none` models `undefined`. -/
def recordFind (m : List (String × List String)) (k : String) : Option (List String) :=
  (m.find? (fun kv => kv.1 == k)).map Prod.snd

/-- The keys of the record, in `for ... in` iteration order. -/
def depsKeys (m : List (String × List String)) : List String :=
  m.map Prod.fst

/-- Helper for the termination argument of `checkDeps`: a strictly
smaller filter when an element moves out of the filtered set. -/
theorem length_filter_lt_of_mem {α : Type} (l : List α) (p q : α → Bool) (a : α)
    (ha : a ∈ l) (hpa : p a = true) (hqa : q a = false)
    (himp : ∀ x, q x = true → p x = true) :
    (l.filter q).length < (l.filter p).length := by
  have hsub : List.Sublist (l.filter q) (l.filter p) := List.monotone_filter_right l himp
  have hle : (l.filter q).length ≤ (l.filter p).length := hsub.length_le
  rcases Nat.lt_or_ge (l.filter q).length (l.filter p).length with h | h
  · exact h
  · exfalso
    have heq : l.filter q = l.filter p :=
      hsub.eq_of_length (Nat.le_antisymm hle h)
    have hmem : a ∈ l.filter p := List.mem_filter.2 ⟨ha, hpa⟩
    have : a ∈ l.filter q := heq ▸ hmem
    have := (List.mem_filter.1 this).2
    simp [hqa] at this

/-- `recordFind` only succeeds on recorded keys. -/
theorem recordFind_mem_depsKeys {m : List (String × List String)} {k : String}
    {v : List String} (h : recordFind m k = some v) : k ∈ depsKeys m := by
  unfold recordFind at h
  rcases Option.map_eq_some'.1 h with ⟨kv, hfind, rfl⟩
  have hp := List.find?_some hfind
  have hmem := List.mem_of_find?_eq_some hfind
  have : kv.1 = k := by simpa using hp
  exact this ▸ List.mem_map_of_mem Prod.fst hmem

/-- `deps[name]?.length ? ... : []`: the dependency list to walk, the
empty list standing in for both a missing key and an empty entry. -/
def depsAt (deps : List (String × List String)) (name : String) : List String :=
  (recordFind deps name).getD []

/-- A non-empty `depsAt` means the name is a recorded key. -/
theorem depsAt_ne_nil_mem_depsKeys {deps : List (String × List String)}
    {name : String} (h : (depsAt deps name).isEmpty = false) :
    name ∈ depsKeys deps := by
  rcases hrf : recordFind deps name with _ | ds
  · simp [depsAt, hrf] at h
  · exact recordFind_mem_depsKeys hrf

/-- Putting `name` on the visited path strictly shrinks the number of
unvisited record keys, provided `name` is an unvisited key itself. -/
theorem checkDepsMeasure_decreases (deps : List (String × List String))
    (name : String) (visited : List String) (hnotmem : name ∉ visited)
    (hne : (depsAt deps name).isEmpty = false) :
    ((depsKeys deps).filter (fun k => !(visited ++ [name]).contains k)).length <
      ((depsKeys deps).filter (fun k => !visited.contains k)).length := by
  refine length_filter_lt_of_mem (depsKeys deps) _ _ name
    (depsAt_ne_nil_mem_depsKeys hne) ?_ ?_ ?_
  · simp [hnotmem]
  · simp
  · intro x hx
    have hx' : x ∉ visited ++ [name] := by
      simpa [List.contains, List.elem_iff] using hx
    have hxv : x ∉ visited := fun hmem => hx' (List.mem_append_left _ hmem)
    simpa [List.contains, List.elem_iff] using hxv

/-- `checkDeps` from `checkForCircularDependencies`: depth-first walk of
the dependency record.  A node already on the active path yields one
cycle diagnostic — the ordered name list `visited -> name` — and stops
that branch; otherwise the walk continues into the node's recorded
dependencies.  The JS function's return value is always `[]`; what is
modelled as the result here is the ordered list of emitted
`Circular dependency detected` diagnostics. -/
def checkDeps (deps : List (String × List String)) (name : String)
    (visited : List String) : List (List String) :=
  if name ∈ visited then [visited ++ [name]]
  else if h : (depsAt deps name).isEmpty then []
  else (depsAt deps name).flatMap (fun dep => checkDeps deps dep (visited ++ [name]))
termination_by ((depsKeys deps).filter (fun k => !visited.contains k)).length
decreasing_by
  rename_i hnotmem
  exact checkDepsMeasure_decreases deps name visited hnotmem (by simpa using h)

/-- Sequence a list of optional values: `some` of the list when every
entry is `some`, else `none`. -/
def optionAll {α : Type} : List (Option α) → Option (List α)
  | [] => some []
  | none :: _ => none
  | some a :: xs =>
    match optionAll xs with
    | some as => some (a :: as)
    | none => none

/-- The recursion of `checkDeps` as literally written — with no a-priori
termination guarantee — made total with an explicit recursion-depth
budget; `none` models a computation that would recurse deeper than
`fuel`. -/
def checkDepsFuel (deps : List (String × List String)) :
    Nat → String → List String → Option (List (List String))
  | 0, _, _ => none
  | fuel + 1, name, visited =>
    if name ∈ visited then some [visited ++ [name]]
    else if (depsAt deps name).isEmpty then some []
    else
      (optionAll ((depsAt deps name).map
        (fun dep => checkDepsFuel deps fuel dep (visited ++ [name])))).map List.flatten

/-- When every entry of the mapped list is `some`, `optionAll` collects
the values. -/
theorem optionAll_map_some {α β : Type} (l : List α) (f : α → Option β) (g : α → β)
    (h : ∀ x ∈ l, f x = some (g x)) :
    optionAll (l.map f) = some (l.map g) := by
  induction l with
  | nil => rfl
  | cons x xs ih =>
    have hx := h x (List.mem_cons_self x xs)
    have hxs := ih (fun y hy => h y (List.mem_cons_of_mem x hy))
    simp [optionAll, hx, hxs]

/-- The literal recursion of `checkDeps` terminates on every dependency
record, cyclic ones included: any fuel exceeding the number of
not-yet-visited record keys suffices, and the result is the total
function `checkDeps`. -/
theorem checkDepsFuel_eq_checkDeps (deps : List (String × List String)) :
    ∀ (fuel : Nat) (name : String) (visited : List String),
      ((depsKeys deps).filter (fun k => !visited.contains k)).length < fuel →
      checkDepsFuel deps fuel name visited = some (checkDeps deps name visited) := by
  intro fuel
  induction fuel with
  | zero => intro name visited h; exact absurd h (Nat.not_lt_zero _)
  | succ fuel ih =>
    intro name visited h
    rw [checkDeps]
    by_cases hmem : name ∈ visited
    · simp [checkDepsFuel, hmem]
    · by_cases hempty : (depsAt deps name).isEmpty
      · simp [checkDepsFuel, hmem, hempty]
      · have hdec := checkDepsMeasure_decreases deps name visited hmem
          (Bool.not_eq_true _ ▸ hempty)
        have hrec : ∀ dep ∈ depsAt deps name,
            checkDepsFuel deps fuel dep (visited ++ [name]) =
              some (checkDeps deps dep (visited ++ [name])) := by
          intro dep _
          exact ih dep (visited ++ [name])
            (Nat.lt_of_lt_of_le hdec (Nat.lt_succ_iff.1 h))
        simp only [checkDepsFuel, if_neg hmem, if_neg hempty, dif_neg hempty,
          optionAll_map_some _ _ _ hrec, Option.map_some']
        rfl

/-- The full `checkForCircularDependencies`: first the
missing-dependency diagnostics (per plugin, the declared dependencies
not registered under any plugin's name), then the dependency record
built from the named plugins, then the cycle diagnostics from a
depth-first check started at every record key in insertion order. -/
def checkForCircularDependencies (ps : List PluginAnn) :
    List (Option String × List String) × List (List String) :=
  let pluginNames := ps.map (fun p => p.name)
  let missing := ps.filterMap (fun p =>
    let miss := p.dependsOn.filter (fun n => !pluginNames.contains (some n))
    if miss.isEmpty then none else some (p.name, miss))
  let deps := ps.foldl (fun m p =>
    match p.name with
    | some n => if n = "" then m else recordSet m n p.dependsOn
    | none => m) []
  (missing, (depsKeys deps).flatMap (fun n => checkDeps deps n []))

/-! ## Route tree builder: prerenderable routes (pages module, `nitro:init` hook) -/

/-- `OPTIONAL_PARAM_RE = /^\/?:.*(\?|\(\.\*\)\*)$/`: after at most one
leading `/`, the segment starts with `:` and ends with `?` or with the
literal catch-all suffix `(.*)*`. -/
def optionalParamTest (s : String) : Bool :=
  let t := if strStartsWith s "/" then strDrop s 1 else s
  strStartsWith t ":" &&
    (strEndsWith (strDrop t 1) "?" || strEndsWith (strDrop t 1) "(.*)*")

/-- `joinURL` from `ufo`, for the path shapes occurring here: join two
path pieces with exactly one `/` between them, an empty piece being the
identity. -/
def joinURL (base input : String) : String :=
  if base.isEmpty then input
  else if input.isEmpty then base
  else
    let b := if strEndsWith base "/" then strDropRight base 1 else base
    let i := if strStartsWith input "/" then input else "/" ++ input
    b ++ i

/-- `prerenderRoutes.add(route)` on a JS `Set`: append if not present. -/
def setAdd (s : List String) (r : String) : List String :=
  if s.contains r then s else s ++ [r]

/-- `processPages` from the `nitro:init`/`pages:extend` hook of the
pages module: walk the page tree accumulating the prerenderable-route
set.  A page whose path passes `OPTIONAL_PARAM_RE` and that has no
children contributes the current parent path; a page whose path contains
`:` is then skipped entirely (`continue`); otherwise the joined route is
added and the children are walked below it. -/
def processPages (pages : List NuxtPage) (currentPath : String)
    (acc : List String) : List String :=
  match pages with
  | [] => acc
  | NuxtPage.mk path _ children :: rest =>
    let acc1 :=
      if optionalParamTest path && children.isEmpty then setAdd acc currentPath
      else acc
    if strContainsChar path ':' then processPages rest currentPath acc1
    else
      let route := joinURL currentPath path
      let acc2 := setAdd acc1 route
      let acc3 := processPages children route acc2
      processPages rest currentPath acc3

/-! ## De-duplication in `resolveApp` (app.ts, lines 176–178 and 192–194) -/

/-- A resolved route middleware entry `{ name, path, global }`. -/
structure Middleware where
  name : String
  path : String
  global : Bool := false
deriving Repr, DecidableEq

/-- The worker of `uniqueBy`, threading the `seen` key set. -/
def uniqueByAux {α : Type} (key : α → String) (seen : List String) :
    List α → List α
  | [] => []
  | x :: xs =>
    if seen.contains (key x) then uniqueByAux key seen xs
    else x :: uniqueByAux key (key x :: seen) xs

/-- Modelled from the spec: `uniqueBy(arr, key)` from the core utils
module, which is not among the provided sources.  It walks the array
once with a `seen` set, keeping for each key value the first entry that
carries it; the spec's "the last-resolved entry wins" is realised at the
middleware call site by reversing before and after this first-wins
scan. -/
def uniqueBy {α : Type} (l : List α) (key : α → String) : List α :=
  uniqueByAux key [] l

/-- Middleware de-duplication before the `app:resolve` hook
(app.ts line 177):
`uniqueBy([...app.middleware].reverse(), 'name').reverse()`.  Path
resolution (`resolvePaths`) is treated as already performed. -/
def dedupeMiddlewarePreHook (l : List Middleware) : List Middleware :=
  (uniqueBy l.reverse (fun m => m.name)).reverse

/-- Middleware de-duplication after the `app:resolve` hook
(app.ts line 193): `uniqueBy(app.middleware, 'name')`, with no
reversing. -/
def dedupeMiddlewarePostHook (l : List Middleware) : List Middleware :=
  uniqueBy l (fun m => m.name)

/-- Plugin de-duplication (app.ts lines 178 and 194):
`uniqueBy(app.plugins, 'src')`, keyed on the resolved source path, with
no reversing at either call site. -/
def dedupePlugins (l : List PluginAnn) : List PluginAnn :=
  uniqueBy l (fun p => p.src)

/-! ## Name derivation for layouts and middleware (app.ts, lines 119–151) -/

/-- The final path segment (`basename`). -/
def baseNameOf (s : String) : String :=
  (splitOnChar '/' s).getLastD s

/-- Modelled from the spec: `getNameFromPath` from the core utils module
(not among the provided sources).  The logical name comes from the
file's path relative to the base directory (when one is given, as for
layouts) or from its base filename (as for middleware), minus the
extension; `index` segments are ignored — "Bear in mind that `index` is
ignored for the purpose of creating a layout name" — so an index-only
file yields the empty name.  Remaining segments are joined with `-`. -/
def getNameFromPath (file : String) (relativeTo : Option String) : String :=
  let rel :=
    match relativeTo with
    | some base =>
      if strStartsWith file (base ++ "/") then strDrop file (base.length + 1) else file
    | none => baseNameOf file
  let noExt := stripLastExt rel
  let segments := (splitOnChar '/' noExt).filter (fun seg => seg ≠ "index" && seg ≠ "")
  joinWith "-" segments

/-- Modelled from the spec: `hasSuffix` from the core utils module (not
among the provided sources); middleware is "partitioned into global vs.
named by a filename convention", the base filename (minus extension)
ending in the given suffix. -/
def hasSuffix (file suffix : String) : Bool :=
  strEndsWith (stripLastExt (baseNameOf file)) suffix

/-- A resolved layout entry `{ name, file }`. -/
structure LayoutEntry where
  name : String
  file : String
deriving Repr, DecidableEq

/-- The body of the layout file loop (app.ts lines 126–134): derive the
name; an empty name is warned about (the file is appended to the warning
list) and skipped; otherwise
`app.layouts[name] = app.layouts[name] || { name, file }` keeps any
existing entry for the name.  State: (layouts record, warned files). -/
def layoutFileStep (layoutDir : String)
    (st : List (String × LayoutEntry) × List String) (file : String) :
    List (String × LayoutEntry) × List String :=
  let name := getNameFromPath file (some layoutDir)
  if name = "" then (st.1, st.2 ++ [file])
  else if st.1.any (fun kv => kv.1 == name) then st
  else (st.1 ++ [(name, ⟨name, file⟩)], st.2)

/-- The layouts resolution of `resolveApp` (app.ts lines 119–135): each
layer contributes its layout directory and discovered files, processed
in layer order. -/
def resolveLayouts (layers : List (String × List String)) :
    List (String × LayoutEntry) × List String :=
  layers.foldl (fun st layer => layer.2.foldl (layoutFileStep layer.1) st) ([], [])

/-- The body of the middleware file loop (app.ts lines 142–150): derive
the name from the base filename; an empty name is warned about and
skipped; otherwise the entry is pushed with its `.global` suffix flag. -/
def middlewareFileStep (st : List Middleware × List String) (file : String) :
    List Middleware × List String :=
  let name := getNameFromPath file none
  if name = "" then (st.1, st.2 ++ [file])
  else (st.1 ++ [⟨name, file, hasSuffix file ".global"⟩], st.2)

/-- The middleware resolution of `resolveApp` (app.ts lines 137–151):
each (reversed) layer contributes its discovered middleware files. -/
def resolveMiddleware (layers : List (List String)) :
    List Middleware × List String :=
  layers.foldl (fun st files => files.foldl middlewareFileStep st) ([], [])

/-! ## Watch reactor (nuxt.ts lines 434–461; pages module watch hooks) -/

/-- An entry of `nuxt.options.watch`: a literal string or a regular
expression, the latter abstracted as its match predicate. -/
inductive WatchPattern where
  | str (s : String)
  | regex (test : String → Bool)

/-- The action a watch handler settles on. -/
inductive WatchAction where
  | restartHard
  | restart
  | none
deriving Repr, DecidableEq

/-- `RESTART_RE = /^(app|error|app\.config)\.(js|ts|mjs|jsx|tsx|vue)$/i`
(nuxt.ts line 558), anchored at both ends, case-insensitive. -/
def RESTART_RE_test (s : String) : Bool :=
  ["app", "error", "app.config"].any (fun stem =>
    ["js", "ts", "mjs", "jsx", "tsx", "vue"].any (fun ext =>
      strToLower s == stem ++ "." ++ ext))

/-- A configuration layer as the watch handlers see it: source dir,
fallback cwd, and the resolved directory names. -/
structure LayerCfg where
  srcDir : String
  cwd : String := ""
  pagesDir : String := "pages"
  layoutsDir : String := "layouts"
  middlewareDir : String := "middleware"

/-- `layer.config.srcDir || layer.cwd`. -/
def layerSrcOrCwd (l : LayerCfg) : String :=
  if l.srcDir == "" then l.cwd else l.srcDir

/-- `relative(base, p)` from `pathe`, for the shapes occurring here: the
empty path when they coincide, the suffix when `p` lies under `base`,
and otherwise some `..`-traversing path (modelled coarsely, and never a
bare root filename). -/
def relativePathe (base p : String) : String :=
  if p == base then ""
  else if strStartsWith p (base ++ "/") then strDrop p (base.length + 1)
  else "../" ++ p

/-- The configuration the `initNuxt` watch handler closes over:
`srcDir`, the watched local-module paths, the user watch patterns and
the layer list. -/
structure WatchCfg where
  srcDir : String
  watchedPaths : List String := []
  watch : List WatchPattern := []
  layers : List LayerCfg := []

/-- One user watch pattern tested as in nuxt.ts lines 443–453: a string
matches the absolute path or any layer-relative path exactly; a regex is
tested against every layer-relative path. -/
def watchPatternMatches (path : String) (layerRelativePaths : List String) :
    WatchPattern → Bool
  | .str s => s == path || layerRelativePaths.contains s
  | .regex t => layerRelativePaths.any t

/-- The `builder:watch` handler registered in `initNuxt` (nuxt.ts lines
434–461): a watched local-module path restarts hard; a user watch
pattern match restarts; an `add`/`unlink` event whose (absolute,
resolved) path passes `RESTART_RE` restarts; otherwise nothing
happens. -/
def initNuxtWatchHandler (cfg : WatchCfg) (event relativePath : String) :
    WatchAction :=
  let path := resolvePathe cfg.srcDir relativePath
  if cfg.watchedPaths.contains path then .restartHard
  else
    let layerRelativePaths := cfg.layers.map (fun l => relativePathe (layerSrcOrCwd l) path)
    if cfg.watch.any (watchPatternMatches path layerRelativePaths) then .restart
    else
      let isFileChange := event == "add" || event == "unlink"
      if isFileChange && RESTART_RE_test path then .restart
      else .none

/-- `join` from `pathe` for the shapes occurring here. -/
def joinPath (a b : String) : String :=
  a ++ "/" ++ b

/-- The pages module's restart paths (part_000 lines 411–417): per
layer, the `app/router.options.ts` file and the pages directory. -/
def pagesRestartPaths (layers : List LayerCfg) : List String :=
  layers.flatMap (fun l =>
    [joinPath (layerSrcOrCwd l) "app/router.options.ts",
     joinPath (layerSrcOrCwd l) l.pagesDir])

/-- The pages module's `builder:watch` hook that may restart when the
pages-enabled setting flips (part_000 lines 419–428): if the path is a
restart path or lies under one, re-evaluate `isPagesEnabled` (its
outcome passed here as `newSetting`) and restart exactly when it
differs from the current setting. -/
def pagesToggleWatchHandler (cfg : WatchCfg) (pagesEnabled newSetting : Bool)
    (relativePath : String) : Bool :=
  let path := resolvePathe cfg.srcDir relativePath
  if (pagesRestartPaths cfg.layers).any
      (fun p => p == path || strStartsWith path (p ++ "/")) then
    pagesEnabled != newSetting
  else false

/-- The pages module's template-update path roots (part_000 lines
542–549): per layer, the pages, layouts and middleware directories, each
with a trailing slash. -/
def updateTemplatePaths (layers : List LayerCfg) : List String :=
  layers.flatMap (fun l =>
    [joinPath (layerSrcOrCwd l) l.pagesDir ++ "/",
     joinPath (layerSrcOrCwd l) l.layoutsDir ++ "/",
     joinPath (layerSrcOrCwd l) l.middlewareDir ++ "/"])

/-- `isPage` (part_000 lines 551–554): whether some page node of the
tree (or of a nested child tree) has exactly this source file.  The
source's two `some` passes over each level are fused into one
structural walk with the same boolean value. -/
def isPage : List NuxtPage → String → Bool
  | [], _ => false
  | NuxtPage.mk _ f cs :: rest, file =>
    f == some file || isPage cs file || isPage rest file

/-- The pages module's `builder:watch` hook that regenerates the routes
template (part_000 lines 555–566): with metadata scanning enabled, a
known page file always regenerates; other `change` events do nothing;
non-`change` events under a template path root regenerate.  `true` means
`updateTemplates` is called with the filter selecting only the template
named `routes.mjs`. -/
def pagesRegenWatchHandler (cfg : WatchCfg) (scanPageMeta : Bool)
    (pages : List NuxtPage) (event relativePath : String) : Bool :=
  let path := resolvePathe cfg.srcDir relativePath
  let shouldAlwaysRegenerate := scanPageMeta && isPage pages path
  if event == "change" && !shouldAlwaysRegenerate then false
  else shouldAlwaysRegenerate ||
    (updateTemplatePaths cfg.layers).any (fun dir => strStartsWith path dir)

/-- The combined effect of the three `builder:watch` handlers above on
one filesystem event. -/
structure WatchOutcome where
  nuxtAction : WatchAction
  pagesToggleRestart : Bool
  regenRoutesOnly : Bool
deriving Repr, DecidableEq

/-- Classify one watch event through all three handlers.  `newSetting`
is the value `isPagesEnabled` would return when re-evaluated by the
toggle handler. -/
def classifyWatchEvent (cfg : WatchCfg) (scanPageMeta : Bool)
    (pagesEnabled newSetting : Bool) (pages : List NuxtPage)
    (event relativePath : String) : WatchOutcome :=
  { nuxtAction := initNuxtWatchHandler cfg event relativePath
    pagesToggleRestart := pagesToggleWatchHandler cfg pagesEnabled newSetting relativePath
    regenRoutesOnly := pagesRegenWatchHandler cfg scanPageMeta pages event relativePath }

/-! ## Supporting lemmas about the vfs and a generation pass -/

/-- Overwriting the entries keyed `p` in place yields `p ↦ c` when some
entry has key `p`. -/
theorem find?_set_mapped (p : String) (c : String) :
    ∀ vfs : List (String × String), vfs.any (fun kv => kv.1 == p) = true →
      List.find? (fun kv => kv.1 == p)
        (vfs.map (fun kv => if kv.1 == p then (p, c) else kv)) = some (p, c)
  | [], h => by simp at h
  | kv :: vfs, h => by
    rw [List.map_cons, List.find?_cons]
    by_cases hk : (kv.1 == p) = true
    · rw [if_pos hk]
      simp
    · rw [if_neg hk]
      have hk' : (kv.1 == p) = false := Bool.not_eq_true _ ▸ hk
      simp only [hk', cond_false]
      exact find?_set_mapped p c vfs (by simpa [List.any_cons, hk] using h)

/-- Overwriting the entries keyed `p` leaves lookups of other keys
unchanged. -/
theorem find?_set_mapped_ne (p c q : String) (hq : q ≠ p) :
    ∀ vfs : List (String × String),
      List.find? (fun kv => kv.1 == q)
        (vfs.map (fun kv => if kv.1 == p then (p, c) else kv)) =
      List.find? (fun kv => kv.1 == q) vfs
  | [] => rfl
  | kv :: vfs => by
    rw [List.map_cons, List.find?_cons, List.find?_cons]
    by_cases hk : (kv.1 == p) = true
    · have hkp : kv.1 = p := by simpa using hk
      have h1 : (((p, c) : String × String).1 == q) = false := by
        simp [Ne.symm hq]
      have h2 : (kv.1 == q) = false := by
        simp [hkp, Ne.symm hq]
      rw [if_pos hk]
      simp only [h1, h2, cond_false]
      exact find?_set_mapped_ne p c q hq vfs
    · rw [if_neg hk]
      by_cases hkq : (kv.1 == q) = true
      · simp only [hkq, cond_true]
      · have hkq' : (kv.1 == q) = false := Bool.not_eq_true _ ▸ hkq
        simp only [hkq', cond_false]
        exact find?_set_mapped_ne p c q hq vfs

/-- Setting a key makes it readable. -/
theorem vfsFind_vfsSet_self (vfs : List (String × String)) (p c : String) :
    vfsFind (vfsSet vfs p c) p = some c := by
  unfold vfsFind vfsSet
  by_cases hany : vfs.any (fun kv => kv.1 == p) = true
  · rw [if_pos hany, find?_set_mapped p c vfs hany]
    rfl
  · have hnone : List.find? (fun kv => kv.1 == p) vfs = none := by
      rw [List.find?_eq_none]
      intro kv hkv
      have := (List.any_eq_false.1 (Bool.not_eq_true _ ▸ hany)) kv hkv
      simpa using this
    rw [if_neg hany, List.find?_append, hnone]
    simp

/-- Setting a key leaves other keys' lookups unchanged. -/
theorem vfsFind_vfsSet_ne (vfs : List (String × String)) (p c q : String)
    (hq : q ≠ p) : vfsFind (vfsSet vfs p c) q = vfsFind vfs q := by
  unfold vfsFind vfsSet
  by_cases hany : vfs.any (fun kv => kv.1 == p) = true
  · rw [if_pos hany, find?_set_mapped_ne p c q hq vfs]
  · have h1 : (((p, c) : String × String).1 == q) = false := by
      simp [Ne.symm hq]
    rw [if_neg hany, List.find?_append]
    simp [List.find?, h1]

/-- A generation step leaves vfs entries other than the template's full
path and alias path untouched. -/
theorem generateStep_vfs_untouched (compile : ResolvedTemplate → String)
    (buildDir : String) (st : GenPass) (t : ResolvedTemplate) (q : String)
    (hfp : q ≠ templateFullPath buildDir t) (hal : q ≠ aliasPath t) :
    vfsFind (generateStep compile buildDir st t).vfs q = vfsFind st.vfs q := by
  unfold generateStep
  by_cases hmod : vfsFind st.vfs (templateFullPath buildDir t) != some (compile t)
  · simp only [hmod, if_true]
    rw [vfsFind_vfsSet_ne _ _ _ _ hal, vfsFind_vfsSet_ne _ _ _ _ hfp]
  · simp only [Bool.not_eq_true] at hmod
    simp [hmod]

/-- A whole pass leaves vfs entries untouched when no processed template
full path or alias path equals the key. -/
theorem generateApp_vfs_untouched (compile : ResolvedTemplate → String)
    (buildDir : String) (q : String) :
    ∀ (ts : List ResolvedTemplate) (st : GenPass),
      (∀ t ∈ ts, q ≠ templateFullPath buildDir t ∧ q ≠ aliasPath t) →
      vfsFind (ts.foldl (generateStep compile buildDir) st).vfs q = vfsFind st.vfs q
  | [], st, _ => rfl
  | t :: ts, st, h => by
    have hh := h t (List.mem_cons_self t ts)
    rw [List.foldl_cons,
      generateApp_vfs_untouched compile buildDir q ts _
        (fun t' ht' => h t' (List.mem_cons_of_mem t ht')),
      generateStep_vfs_untouched compile buildDir st t q hh.1 hh.2]

/-- After a generation step, the template's compiled contents sit at its
full path (whether or not it was modified), provided its alias does not
shadow it. -/
theorem generateStep_vfs_self (compile : ResolvedTemplate → String)
    (buildDir : String) (st : GenPass) (t : ResolvedTemplate)
    (hal : templateFullPath buildDir t ≠ aliasPath t) :
    vfsFind (generateStep compile buildDir st t).vfs (templateFullPath buildDir t) =
      some (compile t) := by
  unfold generateStep
  by_cases hmod : vfsFind st.vfs (templateFullPath buildDir t) != some (compile t)
  · simp only [hmod, if_true]
    rw [vfsFind_vfsSet_ne _ _ _ _ hal, vfsFind_vfsSet_self]
  · simp only [Bool.not_eq_true] at hmod
    simp only [bne_eq_false_iff_eq] at hmod
    simp [hmod]

/-- After one full pass, every processed template's compiled contents
are stored at its full path, provided the full paths are pairwise
distinct and no full path coincides with any alias path. -/
theorem generateApp_vfs_contents (compile : ResolvedTemplate → String)
    (buildDir : String) :
    ∀ (ts : List ResolvedTemplate) (st : GenPass),
      (ts.map (templateFullPath buildDir)).Nodup →
      (∀ t ∈ ts, ∀ t' ∈ ts, templateFullPath buildDir t ≠ aliasPath t') →
      ∀ t ∈ ts,
        vfsFind (ts.foldl (generateStep compile buildDir) st).vfs
          (templateFullPath buildDir t) = some (compile t)
  | [], _, _, _, t, ht => absurd ht (List.not_mem_nil t)
  | t₀ :: ts, st, hnodup, halias, t, ht => by
    rcases List.mem_cons.1 ht with rfl | hts
    · rw [List.foldl_cons,
        generateApp_vfs_untouched compile buildDir _ ts _ ?_,
        generateStep_vfs_self compile buildDir st t
          (halias t ht t ht)]
      intro t' ht'
      constructor
      · have := (List.nodup_cons.1 hnodup).1
        exact fun he => this (he ▸ List.mem_map_of_mem (templateFullPath buildDir) ht')
      · exact halias t ht t' (List.mem_cons_of_mem t ht')
    · rw [List.foldl_cons]
      exact generateApp_vfs_contents compile buildDir ts _
        (List.nodup_cons.1 hnodup).2
        (fun a ha b hb =>
          halias a (List.mem_cons_of_mem t₀ ha) b (List.mem_cons_of_mem t₀ hb))
        t hts

/-- A pass whose every template already has its compiled contents in the
vfs changes nothing: no template is modified, the vfs is untouched and
no write is queued. -/
theorem generateApp_noop (compile : ResolvedTemplate → String)
    (buildDir : String) :
    ∀ (ts : List ResolvedTemplate) (st : GenPass),
      (∀ t ∈ ts, vfsFind st.vfs (templateFullPath buildDir t) = some (compile t)) →
      ts.foldl (generateStep compile buildDir) st =
        { vfs := st.vfs,
          results := st.results ++ ts.map (fun t => (t, false)),
          writes := st.writes }
  | [], st, _ => by simp
  | t :: ts, st, h => by
    have ht := h t (List.mem_cons_self t ts)
    have hstep : generateStep compile buildDir st t =
        { vfs := st.vfs, results := st.results ++ [(t, false)], writes := st.writes } := by
      unfold generateStep
      simp [ht]
    rw [List.foldl_cons, hstep,
      generateApp_noop compile buildDir ts
        { vfs := st.vfs, results := st.results ++ [(t, false)], writes := st.writes }
        (fun t' ht' => h t' (List.mem_cons_of_mem t ht'))]
    simp

/-! ## Lemmas for the order-key sort -/

/-- Relabelling that leaves the `order` field alone commutes with the
ordered insertion. -/
theorem orderedInsert_map_of_order_eq (f : PluginAnn → PluginAnn)
    (hf : ∀ p, (f p).order = p.order) (a : PluginAnn) :
    ∀ l : List PluginAnn,
      List.orderedInsert pluginLE (f a) (l.map f) =
        (List.orderedInsert pluginLE a l).map f
  | [] => rfl
  | b :: l => by
    have hiff : pluginLE (f a) (f b) ↔ pluginLE a b := by
      unfold pluginLE pluginOrderKey
      rw [hf a, hf b]
    simp only [List.map_cons, List.orderedInsert]
    by_cases h : pluginLE a b
    · rw [if_pos (hiff.2 h), if_pos h]
      simp
    · rw [if_neg (fun hh => h (hiff.1 hh)), if_neg h, List.map_cons,
        orderedInsert_map_of_order_eq f hf a l]

/-- Relabelling that leaves the `order` field alone commutes with the
stable sort. -/
theorem insertionSort_map_of_order_eq (f : PluginAnn → PluginAnn)
    (hf : ∀ p, (f p).order = p.order) :
    ∀ l : List PluginAnn,
      List.insertionSort pluginLE (l.map f) =
        (List.insertionSort pluginLE l).map f
  | [] => rfl
  | b :: l => by
    simp only [List.map_cons, List.insertionSort]
    rw [insertionSort_map_of_order_eq f hf l, orderedInsert_map_of_order_eq f hf b]

/-! ## The claims -/

/-- **C1.** Re-running `generateApp` when every template compiles to the
same content as the previous pass yields `modified = false` for every
template (`modified` being the inequality of the new content with the
previously stored vfs content), leaves the virtual artifact contents
identical, and performs no physical writes on the second pass.  The
hypotheses rule out distinct templates staging to one path (the full
paths are pairwise distinct and no full path is shadowed by an alias
path), which is what makes the first pass actually store each
template's contents at its own path. -/
theorem generateApp_second_pass_noop (compile : ResolvedTemplate → String)
    (buildDir : String) (vfs0 : List (String × String))
    (templates : List ResolvedTemplate)
    (hnodup : (templates.map (templateFullPath buildDir)).Nodup)
    (halias : ∀ t ∈ templates, ∀ t' ∈ templates,
      templateFullPath buildDir t ≠ aliasPath t') :
    (∀ r ∈ (generateApp compile buildDir
        (generateApp compile buildDir vfs0 templates).vfs templates).results,
      r.2 = false) ∧
    (generateApp compile buildDir
        (generateApp compile buildDir vfs0 templates).vfs templates).vfs =
      (generateApp compile buildDir vfs0 templates).vfs ∧
    (generateApp compile buildDir
        (generateApp compile buildDir vfs0 templates).vfs templates).writes = [] := by
  have hvfs : ∀ t ∈ templates,
      vfsFind (generateApp compile buildDir vfs0 templates).vfs
        (templateFullPath buildDir t) = some (compile t) :=
    generateApp_vfs_contents compile buildDir templates { vfs := vfs0 } hnodup halias
  have hpass : generateApp compile buildDir
      (generateApp compile buildDir vfs0 templates).vfs templates =
      { vfs := (generateApp compile buildDir vfs0 templates).vfs,
        results := templates.map (fun t => (t, false)),
        writes := [] } := by
    have h := generateApp_noop compile buildDir templates
      { vfs := (generateApp compile buildDir vfs0 templates).vfs } hvfs
    simpa using h
  refine ⟨?_, ?_, ?_⟩
  · intro r hr
    rw [hpass] at hr
    simp only [List.mem_map] at hr
    rcases hr with ⟨t, _, rfl⟩
    rfl
  · rw [hpass]
  · rw [hpass]

/-- **C1**, witness: a concrete second pass over one written template is
a no-op. -/
theorem generateApp_second_pass_noop_witness :
    (∀ r ∈ (generateApp (fun t => "export default []\n" ++ t.filename) "/build"
        (generateApp (fun t => "export default []\n" ++ t.filename) "/build" []
          [{ filename := "routes.mjs", write := true }]).vfs
        [{ filename := "routes.mjs", write := true }]).results,
      r.2 = false) ∧
    (generateApp (fun t => "export default []\n" ++ t.filename) "/build"
        (generateApp (fun t => "export default []\n" ++ t.filename) "/build" []
          [{ filename := "routes.mjs", write := true }]).vfs
        [{ filename := "routes.mjs", write := true }]).vfs =
      (generateApp (fun t => "export default []\n" ++ t.filename) "/build" []
        [{ filename := "routes.mjs", write := true }]).vfs ∧
    (generateApp (fun t => "export default []\n" ++ t.filename) "/build"
        (generateApp (fun t => "export default []\n" ++ t.filename) "/build" []
          [{ filename := "routes.mjs", write := true }]).vfs
        [{ filename := "routes.mjs", write := true }]).writes = [] :=
  generateApp_second_pass_noop (fun t => "export default []\n" ++ t.filename)
    "/build" [] [{ filename := "routes.mjs", write := true }]
    (by decide) (by decide)

/-- **C2.** The output of `annotatePlugins` is sorted by the plugin's
order key, a missing order key reading as the neutral default
`orderMap.default`; the output is a permutation of the input; and the
arrangement is a function of the order keys alone — in particular, any
relabelling that keeps every `order` field (so it may change `dependsOn`
arbitrarily) commutes with the sort, so dependency declarations and any
cycle or missing-dependency diagnostics never change the order. -/
theorem annotatePlugins_sorted_by_order_key (ps : List PluginAnn) :
    List.Sorted pluginLE (annotatePlugins ps) ∧
    List.Perm (annotatePlugins ps) ps ∧
    (∀ p : PluginAnn, p.order = none → pluginOrderKey p = orderMapDefault) ∧
    (∀ f : PluginAnn → PluginAnn, (∀ p, (f p).order = p.order) →
      annotatePlugins (ps.map f) = (annotatePlugins ps).map f) := by
  refine ⟨List.sorted_insertionSort pluginLE ps,
    List.perm_insertionSort pluginLE ps, ?_, ?_⟩
  · intro p hp
    simp [pluginOrderKey, hp]
  · intro f hf
    exact insertionSort_map_of_order_eq f hf ps

/-- **C2**, witness: the relabelling clause applied concretely, with a
function that erases every dependency declaration. -/
theorem annotatePlugins_sorted_by_order_key_witness :
    annotatePlugins (List.map (fun p : PluginAnn => { p with dependsOn := [] })
        [{ src := "a.ts", name := some "a", order := some 1, dependsOn := ["b"] },
         { src := "b.ts", name := some "b", dependsOn := ["a"] }]) =
      List.map (fun p : PluginAnn => { p with dependsOn := [] })
        (annotatePlugins
          [{ src := "a.ts", name := some "a", order := some 1, dependsOn := ["b"] },
           { src := "b.ts", name := some "b", dependsOn := ["a"] }]) :=
  (annotatePlugins_sorted_by_order_key
    [{ src := "a.ts", name := some "a", order := some 1, dependsOn := ["b"] },
     { src := "b.ts", name := some "b", dependsOn := ["a"] }]).2.2.2
    (fun p : PluginAnn => { p with dependsOn := [] }) (fun _ => rfl)

/-- **C3.** For every dependency record — cyclic ones included — the
depth-first check terminates and never throws: the recursion as written
(`checkDepsFuel`) completes within any depth budget exceeding the number
of unvisited record keys and agrees with the total function `checkDeps`;
and a node repeated on the active path is reported as exactly one cycle
(the ordered name list of the path followed by the repeated node) with
traversal of that branch stopping there. -/
theorem checkDeps_terminates_and_reports_cycle
    (deps : List (String × List String)) (name : String)
    (visited : List String) (fuel : Nat)
    (hfuel : ((depsKeys deps).filter (fun k => !visited.contains k)).length < fuel) :
    checkDepsFuel deps fuel name visited = some (checkDeps deps name visited) ∧
    (name ∈ visited → checkDeps deps name visited = [visited ++ [name]]) := by
  refine ⟨checkDepsFuel_eq_checkDeps deps fuel name visited hfuel, fun hmem => ?_⟩
  rw [checkDeps, if_pos hmem]

/-- **C3**, witness: on the one-node self-loop the recursion completes
with fuel `1` from a path already containing the node, reporting the
one cycle. -/
theorem checkDeps_terminates_and_reports_cycle_witness :
    (checkDepsFuel [("a", ["a"])] 1 "a" ["a"] =
      some (checkDeps [("a", ["a"])] "a" ["a"])) ∧
    checkDeps [("a", ["a"])] "a" ["a"] = [["a", "a"]] := by
  have h := checkDeps_terminates_and_reports_cycle [("a", ["a"])] "a" ["a"] 1
    (by decide)
  exact ⟨h.1, h.2 (by decide)⟩

/-- `checkDeps` on the two-plugin cycle, entered at `a`. -/
theorem checkDeps_ab_from_a :
    checkDeps [("a", ["b"]), ("b", ["a"])] "a" [] = [["a", "b", "a"]] := by
  have h := checkDepsFuel_eq_checkDeps [("a", ["b"]), ("b", ["a"])] 3 "a" []
    (by decide)
  have hv : checkDepsFuel [("a", ["b"]), ("b", ["a"])] 3 "a" [] =
      some [["a", "b", "a"]] := by decide
  exact Option.some.inj ((hv ▸ h : some _ = some _)).symm

/-- `checkDeps` on the two-plugin cycle, entered at `b`. -/
theorem checkDeps_ab_from_b :
    checkDeps [("a", ["b"]), ("b", ["a"])] "b" [] = [["b", "a", "b"]] := by
  have h := checkDepsFuel_eq_checkDeps [("a", ["b"]), ("b", ["a"])] 3 "b" []
    (by decide)
  have hv : checkDepsFuel [("a", ["b"]), ("b", ["a"])] 3 "b" [] =
      some [["b", "a", "b"]] := by decide
  exact Option.some.inj ((hv ▸ h : some _ = some _)).symm

/-- **C4**, counterexample.  On the plugins
`[{name: 'a', dependsOn: ['b']}, {name: 'b', dependsOn: ['a']}]` the
cycle check emits **two** cycle diagnostics — `a -> b -> a` and
`b -> a -> b`, one per record key lying on the cycle — not exactly one
as claimed. -/
theorem circular_ab_two_diagnostics :
    (checkForCircularDependencies
      [{ src := "a.ts", name := some "a", dependsOn := ["b"] },
       { src := "b.ts", name := some "b", dependsOn := ["a"] }]).2 =
      [["a", "b", "a"], ["b", "a", "b"]] ∧
    (checkForCircularDependencies
      [{ src := "a.ts", name := some "a", dependsOn := ["b"] },
       { src := "b.ts", name := some "b", dependsOn := ["a"] }]).2.length ≠ 1 := by
  have hsplit : (checkForCircularDependencies
      [{ src := "a.ts", name := some "a", dependsOn := ["b"] },
       { src := "b.ts", name := some "b", dependsOn := ["a"] }]).2 =
      checkDeps [("a", ["b"]), ("b", ["a"])] "a" [] ++
        (checkDeps [("a", ["b"]), ("b", ["a"])] "b" [] ++ []) := rfl
  rw [hsplit, checkDeps_ab_from_a, checkDeps_ab_from_b]
  exact ⟨rfl, by decide⟩

/-- **C4**, amended.  Both plugins appear in the final ordered output of
`annotatePlugins` (no deadlock), no missing-dependency diagnostic is
emitted, and the cycle check emits exactly two cycle diagnostics —
`a -> b -> a` and `b -> a -> b`, one per entry point on the cycle. -/
theorem circular_ab_both_kept_two_cycle_diagnostics :
    ({ src := "a.ts", name := some "a", dependsOn := ["b"] } : PluginAnn) ∈
      annotatePlugins
        [{ src := "a.ts", name := some "a", dependsOn := ["b"] },
         { src := "b.ts", name := some "b", dependsOn := ["a"] }] ∧
    ({ src := "b.ts", name := some "b", dependsOn := ["a"] } : PluginAnn) ∈
      annotatePlugins
        [{ src := "a.ts", name := some "a", dependsOn := ["b"] },
         { src := "b.ts", name := some "b", dependsOn := ["a"] }] ∧
    (checkForCircularDependencies
      [{ src := "a.ts", name := some "a", dependsOn := ["b"] },
       { src := "b.ts", name := some "b", dependsOn := ["a"] }]).1 = [] ∧
    (checkForCircularDependencies
      [{ src := "a.ts", name := some "a", dependsOn := ["b"] },
       { src := "b.ts", name := some "b", dependsOn := ["a"] }]).2 =
      [["a", "b", "a"], ["b", "a", "b"]] := by
  have hsplit : (checkForCircularDependencies
      [{ src := "a.ts", name := some "a", dependsOn := ["b"] },
       { src := "b.ts", name := some "b", dependsOn := ["a"] }]).2 =
      checkDeps [("a", ["b"]), ("b", ["a"])] "a" [] ++
        (checkDeps [("a", ["b"]), ("b", ["a"])] "b" [] ++ []) := rfl
  refine ⟨by decide, by decide, by decide, ?_⟩
  rw [hsplit, checkDeps_ab_from_a, checkDeps_ab_from_b]
  rfl

/-- **C10.** When the user configuration sets the `pages` option to an
explicit boolean, `isPagesEnabled` returns that boolean unchanged, for
every state of the router-options files, the pages directories and the
resolved page routes — none of them is consulted. -/
theorem isPagesEnabled_explicit_boolean (b : Bool)
    (routerOptionsFiles : List RouterOptionsFile)
    (somePagesDirNonEmpty : Bool) (pages : List NuxtPage) :
    isPagesEnabled (some b) routerOptionsFiles somePagesDirNonEmpty pages = b :=
  rfl

set_option maxRecDepth 100000 in
/-- **C5**, counterexample.  For the page tree
`[{path:'/', children:[]}, {path:'/blog/:slug?', children:[]}]` the
computed prerenderable-route set is `{'/'}`, not `{'/', '/blog'}`:
`OPTIONAL_PARAM_RE` requires the `:` right after an optional leading
`/`, so the flat path `/blog/:slug?` does not match it, and as a
dynamic path it is skipped entirely. -/
theorem prerender_flat_tree_excludes_blog :
    processPages [NuxtPage.mk "/" none [], NuxtPage.mk "/blog/:slug?" none []]
      "/" [] = ["/"] ∧
    "/blog" ∉ processPages
      [NuxtPage.mk "/" none [], NuxtPage.mk "/blog/:slug?" none []] "/" [] := by
  have h : processPages
      [NuxtPage.mk "/" none [], NuxtPage.mk "/blog/:slug?" none []] "/" [] =
      ["/"] := by
    simp +decide only [processPages]
  exact ⟨h, by rw [h]; decide⟩

set_option maxRecDepth 100000 in
/-- **C5**, amended.  For the flat tree
`[{path:'/', children:[]}, {path:'/blog/:slug?', children:[]}]` the
prerenderable set is `{'/'}`; the set `{'/', '/blog'}` (with
`/blog/:slug` itself excluded) arises for the nested tree
`[{path:'/', children:[]}, {path:'/blog', children:[{path:':slug?', children:[]}]}]`,
where the childless optional segment `:slug?` contributes its parent
path `/blog`. -/
theorem prerender_flat_and_nested_sets :
    processPages [NuxtPage.mk "/" none [], NuxtPage.mk "/blog/:slug?" none []]
      "/" [] = ["/"] ∧
    processPages
      [NuxtPage.mk "/" none [],
       NuxtPage.mk "/blog" none [NuxtPage.mk ":slug?" none []]] "/" [] =
      ["/", "/blog"] ∧
    "/blog/:slug" ∉ processPages
      [NuxtPage.mk "/" none [],
       NuxtPage.mk "/blog" none [NuxtPage.mk ":slug?" none []]] "/" [] := by
  have h2 : processPages
      [NuxtPage.mk "/" none [],
       NuxtPage.mk "/blog" none [NuxtPage.mk ":slug?" none []]] "/" [] =
      ["/", "/blog"] := by
    simp +decide only [processPages]
  refine ⟨by simp +decide only [processPages], h2, by rw [h2]; decide⟩

/-! ## Lemmas for `uniqueBy` -/

/-- What `uniqueByAux` keeps for one key value: nothing if the key was
already seen, else the first entry of the remaining input carrying it. -/
theorem uniqueByAux_filter {α : Type} (key : α → String) (k : String) :
    ∀ (l : List α) (seen : List String),
      (uniqueByAux key seen l).filter (fun x => key x == k) =
        if seen.contains k then [] else (l.find? (fun x => key x == k)).toList
  | [], seen => by
    cases h : seen.contains k <;> simp [uniqueByAux, h]
  | x :: xs, seen => by
    unfold uniqueByAux
    by_cases hx : seen.contains (key x) = true
    · rw [if_pos hx, uniqueByAux_filter key k xs seen]
      by_cases hk : seen.contains k = true
      · rw [if_pos hk, if_pos hk]
      · have hne : (key x == k) = false := by
          by_cases he : key x = k
          · exact absurd (he ▸ hx) hk
          · simpa using he
        rw [if_neg hk, if_neg hk, List.find?_cons, hne]
    · rw [if_neg hx, List.filter_cons, uniqueByAux_filter key k xs (key x :: seen)]
      by_cases hk : (key x == k) = true
      · have hkk : key x = k := by simpa using hk
        have hseen : (key x :: seen).contains k = true := by
          subst hkk
          simp [List.contains]
        have hnk : ¬(seen.contains k = true) := hkk ▸ hx
        rw [if_pos hseen, if_pos (by simpa using hk), if_neg hnk,
          List.find?_cons, hk]
        rfl
      · have hkb : (key x == k) = false := Bool.not_eq_true _ ▸ hk
        have hkne : ¬ key x = k := by simpa using hkb
        have hkb' : (k == key x) = false := by
          simpa using fun he => hkne he.symm
        have hseen : (key x :: seen).contains k = seen.contains k := by
          simp only [List.contains, List.elem_cons, hkb', Bool.false_or]
        rw [hseen, if_neg (by simpa using hk), List.find?_cons, hkb]

/-- The entry `uniqueBy` keeps per key value is the first one carrying
it. -/
theorem uniqueBy_filter {α : Type} (key : α → String) (k : String) (l : List α) :
    (uniqueBy l key).filter (fun x => key x == k) =
      (l.find? (fun x => key x == k)).toList := by
  rw [uniqueBy, uniqueByAux_filter key k l []]
  rfl

/-- **C6**, counterexample.  Two plugins sharing a resolved source path:
the de-duplication keeps the **first** of them, not the last-resolved
one as claimed. -/
theorem dedupePlugins_keeps_first_entry :
    dedupePlugins
      [{ src := "/p.ts", name := some "p1" }, { src := "/p.ts", name := some "p2" }] =
      [{ src := "/p.ts", name := some "p1" }] ∧
    ({ src := "/p.ts", name := some "p1" } : PluginAnn) ≠
      { src := "/p.ts", name := some "p2" } := by
  exact ⟨by decide, by decide⟩

/-- **C6**, amended.  Plugins dedupe by resolved source path and
middleware by name; for the middleware de-duplication before the
`app:resolve` hook the reverse-wrapped scan keeps, for each name, the
**last** entry of the list, while for plugins (both call sites) and for
the post-hook middleware de-duplication the plain scan keeps the
**first** entry for each key. -/
theorem dedupe_directions (l : List Middleware) (ps : List PluginAnn)
    (n s : String) :
    (dedupeMiddlewarePreHook l).filter (fun m => m.name == n) =
      (l.reverse.find? (fun m => m.name == n)).toList ∧
    (dedupePlugins ps).filter (fun p => p.src == s) =
      (ps.find? (fun p => p.src == s)).toList ∧
    (dedupeMiddlewarePostHook l).filter (fun m => m.name == n) =
      (l.find? (fun m => m.name == n)).toList := by
  refine ⟨?_, uniqueBy_filter (fun p => p.src) s ps,
    uniqueBy_filter (fun m => m.name) n l⟩
  rw [dedupeMiddlewarePreHook, List.filter_reverse,
    uniqueBy_filter (fun m => m.name) n l.reverse]
  cases l.reverse.find? (fun m => m.name == n) <;> simp

/-- **C7.** The watch handler in `initNuxt` is meant (per its own
comment and log line) to restart on `add`/`unlink` of the root-level
entry files `app.vue` / `error.vue` / `app.config.ts`, and `RESTART_RE`
does match those bare filenames — but the handler tests the regex
against the **absolute resolved** path, which the `^`-anchored regex can
never match, so the event falls through to no action. -/
theorem core_file_add_event_does_not_restart :
    initNuxtWatchHandler { srcDir := "/srcDir" } "add" "app.vue" =
      WatchAction.none ∧
    RESTART_RE_test "app.vue" = true ∧
    resolvePathe "/srcDir" "app.vue" = "/srcDir/app.vue" ∧
    RESTART_RE_test "/srcDir/app.vue" = false := by
  exact ⟨by decide, by decide, by decide, by decide⟩

set_option maxRecDepth 100000 in
/-- **C8**, counterexample.  A `change` event for a file under the
plugins directory triggers **no** action at all in the watch handlers —
no full restart (and no regeneration): the `initNuxt` handler only
restarts for watched local-module paths, user watch patterns, or
`add`/`unlink` events, and the pages-module handlers ignore `change`
events for non-page files. -/
theorem plugins_change_event_no_action :
    classifyWatchEvent { srcDir := "/src", layers := [{ srcDir := "/src" }] }
      true true true
      [NuxtPage.mk "/a" (some "/src/pages/a.vue") []]
      "change" "plugins/foo.ts" =
      { nuxtAction := WatchAction.none, pagesToggleRestart := false,
        regenRoutesOnly := false } := by
  simp +decide only [classifyWatchEvent, initNuxtWatchHandler,
    pagesToggleWatchHandler, pagesRegenWatchHandler, isPage]

/-- **C8**, amended.  For a `change` event (with no watched local-module
path hit, no user watch pattern hit, and the pages-enabled setting not
flipping): when the file is not a recognized page under metadata
scanning, **no** handler takes any action — in particular a `change`
under the plugins directory neither restarts nor regenerates; when the
file is a recognized page and `experimental.scanPageMeta` is enabled,
the only action is the targeted regeneration of the `routes.mjs`
template, with no restart. -/
theorem watch_change_classification (cfg : WatchCfg) (scanPageMeta : Bool)
    (pages : List NuxtPage) (pagesEnabled : Bool) (relativePath : String)
    (hw : cfg.watchedPaths.contains (resolvePathe cfg.srcDir relativePath) = false)
    (hp : cfg.watch.any (watchPatternMatches (resolvePathe cfg.srcDir relativePath)
      (cfg.layers.map (fun l => relativePathe (layerSrcOrCwd l)
        (resolvePathe cfg.srcDir relativePath)))) = false) :
    ((scanPageMeta && isPage pages (resolvePathe cfg.srcDir relativePath)) = false →
      classifyWatchEvent cfg scanPageMeta pagesEnabled pagesEnabled pages
        "change" relativePath =
        { nuxtAction := WatchAction.none, pagesToggleRestart := false,
          regenRoutesOnly := false }) ∧
    ((scanPageMeta && isPage pages (resolvePathe cfg.srcDir relativePath)) = true →
      classifyWatchEvent cfg scanPageMeta pagesEnabled pagesEnabled pages
        "change" relativePath =
        { nuxtAction := WatchAction.none, pagesToggleRestart := false,
          regenRoutesOnly := true }) := by
  have hnuxt : initNuxtWatchHandler cfg "change" relativePath = WatchAction.none := by
    have hw' : resolvePathe cfg.srcDir relativePath ∉ cfg.watchedPaths := by
      simpa [List.contains, List.elem_iff] using hw
    simp +decide [initNuxtWatchHandler, hw', hp]
  have htoggle : pagesToggleWatchHandler cfg pagesEnabled pagesEnabled
      relativePath = false := by
    simp [pagesToggleWatchHandler]
  constructor
  · intro h
    simp only [classifyWatchEvent, pagesRegenWatchHandler]
    rw [hnuxt, htoggle, h]
    simp +decide
  · intro h
    simp only [classifyWatchEvent, pagesRegenWatchHandler]
    rw [hnuxt, htoggle, h]
    simp +decide

set_option maxRecDepth 100000 in
/-- **C8**, witness: a `change` to a known page file with
`experimental.scanPageMeta` enabled regenerates only the routes
template and restarts nothing. -/
theorem watch_change_classification_witness :
    classifyWatchEvent { srcDir := "/src", layers := [{ srcDir := "/src" }] }
      true true true
      [NuxtPage.mk "/a" (some "/src/pages/a.vue") []]
      "change" "pages/a.vue" =
      { nuxtAction := WatchAction.none, pagesToggleRestart := false,
        regenRoutesOnly := true } :=
  (watch_change_classification
    { srcDir := "/src", layers := [{ srcDir := "/src" }] } true
    [NuxtPage.mk "/a" (some "/src/pages/a.vue") []] true "pages/a.vue"
    (by decide) (by decide)).2
    (by simp +decide only [isPage])

/-! ## Lemmas for layout/middleware name derivation -/

/-- A layout-file step only ever adds entries keyed by a non-empty
name. -/
theorem layoutFileStep_mem (dir : String)
    (st : List (String × LayoutEntry) × List String) (file : String) :
    ∀ kv ∈ (layoutFileStep dir st file).1, kv ∈ st.1 ∨ kv.1 ≠ "" := by
  intro kv hkv
  unfold layoutFileStep at hkv
  by_cases h : getNameFromPath file (some dir) = ""
  · rw [if_pos h] at hkv
    exact Or.inl hkv
  · rw [if_neg h] at hkv
    by_cases h2 : st.1.any (fun kv => kv.1 == getNameFromPath file (some dir)) = true
    · rw [if_pos h2] at hkv
      exact Or.inl hkv
    · rw [if_neg h2] at hkv
      rcases List.mem_append.1 hkv with h3 | h3
      · exact Or.inl h3
      · have : kv = (getNameFromPath file (some dir),
            ⟨getNameFromPath file (some dir), file⟩) := by simpa using h3
        exact Or.inr (this ▸ h)

/-- Folding layout files preserves "all stored names non-empty". -/
theorem layoutFilesFold_names (dir : String) :
    ∀ (files : List String) (st : List (String × LayoutEntry) × List String),
      (∀ kv ∈ st.1, kv.1 ≠ "") →
      ∀ kv ∈ (files.foldl (layoutFileStep dir) st).1, kv.1 ≠ ""
  | [], _, h => h
  | f :: fs, st, h => by
    rw [List.foldl_cons]
    refine layoutFilesFold_names dir fs _ ?_
    intro kv hkv
    rcases layoutFileStep_mem dir st f kv hkv with hin | hne
    · exact h kv hin
    · exact hne

/-- Folding layers preserves "all stored layout names non-empty". -/
theorem layoutLayersFold_names :
    ∀ (layers : List (String × List String))
      (st : List (String × LayoutEntry) × List String),
      (∀ kv ∈ st.1, kv.1 ≠ "") →
      ∀ kv ∈ (layers.foldl
        (fun st layer => layer.2.foldl (layoutFileStep layer.1) st) st).1,
        kv.1 ≠ ""
  | [], _, h => h
  | l :: ls, st, h => by
    rw [List.foldl_cons]
    exact layoutLayersFold_names ls _ (layoutFilesFold_names l.1 l.2 st h)

/-- The warnings a layout-file fold appends are exactly the files whose
derived name is empty, in encounter order. -/
theorem layoutFilesFold_warnings (dir : String) :
    ∀ (files : List String) (st : List (String × LayoutEntry) × List String),
      (files.foldl (layoutFileStep dir) st).2 =
        st.2 ++ files.filter (fun f => getNameFromPath f (some dir) == "")
  | [], st => by simp
  | f :: fs, st => by
    rw [List.foldl_cons, layoutFilesFold_warnings dir fs _, List.filter_cons]
    by_cases h : getNameFromPath f (some dir) = ""
    · have hb : (getNameFromPath f (some dir) == "") = true := by simp [h]
      have hstep : (layoutFileStep dir st f).2 = st.2 ++ [f] := by
        unfold layoutFileStep
        rw [if_pos h]
      rw [hb, hstep]
      simp
    · have hb : (getNameFromPath f (some dir) == "") = false := by simp [h]
      have hstep : (layoutFileStep dir st f).2 = st.2 := by
        unfold layoutFileStep
        rw [if_neg h]
        by_cases h2 : st.1.any (fun kv => kv.1 == getNameFromPath f (some dir)) = true
        · rw [if_pos h2]
        · rw [if_neg h2]
      rw [hb, hstep]
      simp

/-- Layer-level version of `layoutFilesFold_warnings`. -/
theorem layoutLayersFold_warnings :
    ∀ (layers : List (String × List String))
      (st : List (String × LayoutEntry) × List String),
      (layers.foldl
        (fun st layer => layer.2.foldl (layoutFileStep layer.1) st) st).2 =
        st.2 ++ layers.flatMap
          (fun l => l.2.filter (fun f => getNameFromPath f (some l.1) == ""))
  | [], st => by simp
  | l :: ls, st => by
    rw [List.foldl_cons, layoutLayersFold_warnings ls _,
      layoutFilesFold_warnings l.1 l.2 st, List.flatMap_cons,
      List.append_assoc]

/-- A middleware-file step only ever pushes entries with a non-empty
name. -/
theorem middlewareFileStep_mem (st : List Middleware × List String)
    (file : String) :
    ∀ mw ∈ (middlewareFileStep st file).1, mw ∈ st.1 ∨ mw.name ≠ "" := by
  intro mw hmw
  unfold middlewareFileStep at hmw
  by_cases h : getNameFromPath file none = ""
  · rw [if_pos h] at hmw
    exact Or.inl hmw
  · rw [if_neg h] at hmw
    rcases List.mem_append.1 hmw with h3 | h3
    · exact Or.inl h3
    · have : mw = ⟨getNameFromPath file none, file, hasSuffix file ".global"⟩ := by
        simpa using h3
      exact Or.inr (by rw [this]; exact h)

/-- Folding middleware files preserves "all names non-empty". -/
theorem middlewareFilesFold_names :
    ∀ (files : List String) (st : List Middleware × List String),
      (∀ mw ∈ st.1, mw.name ≠ "") →
      ∀ mw ∈ (files.foldl middlewareFileStep st).1, mw.name ≠ ""
  | [], _, h => h
  | f :: fs, st, h => by
    rw [List.foldl_cons]
    refine middlewareFilesFold_names fs _ ?_
    intro mw hmw
    rcases middlewareFileStep_mem st f mw hmw with hin | hne
    · exact h mw hin
    · exact hne

/-- Layer-level version of `middlewareFilesFold_names`. -/
theorem middlewareLayersFold_names :
    ∀ (layers : List (List String)) (st : List Middleware × List String),
      (∀ mw ∈ st.1, mw.name ≠ "") →
      ∀ mw ∈ (layers.foldl (fun st files => files.foldl middlewareFileStep st) st).1,
        mw.name ≠ ""
  | [], _, h => h
  | fs :: ls, st, h => by
    rw [List.foldl_cons]
    exact middlewareLayersFold_names ls _ (middlewareFilesFold_names fs st h)

/-- The warnings a middleware-file fold appends are exactly the files
whose derived name is empty, in encounter order. -/
theorem middlewareFilesFold_warnings :
    ∀ (files : List String) (st : List Middleware × List String),
      (files.foldl middlewareFileStep st).2 =
        st.2 ++ files.filter (fun f => getNameFromPath f none == "")
  | [], st => by simp
  | f :: fs, st => by
    rw [List.foldl_cons, middlewareFilesFold_warnings fs _, List.filter_cons]
    by_cases h : getNameFromPath f none = ""
    · have hb : (getNameFromPath f none == "") = true := by simp [h]
      have hstep : (middlewareFileStep st f).2 = st.2 ++ [f] := by
        unfold middlewareFileStep
        rw [if_pos h]
      rw [hb, hstep]
      simp
    · have hb : (getNameFromPath f none == "") = false := by simp [h]
      have hstep : (middlewareFileStep st f).2 = st.2 := by
        unfold middlewareFileStep
        rw [if_neg h]
      rw [hb, hstep]
      simp

/-- Layer-level version of `middlewareFilesFold_warnings`. -/
theorem middlewareLayersFold_warnings :
    ∀ (layers : List (List String)) (st : List Middleware × List String),
      (layers.foldl (fun st files => files.foldl middlewareFileStep st) st).2 =
        st.2 ++ layers.flatMap
          (fun files => files.filter (fun f => getNameFromPath f none == ""))
  | [], st => by simp
  | fs :: ls, st => by
    rw [List.foldl_cons, middlewareLayersFold_warnings ls _,
      middlewareFilesFold_warnings fs st, List.flatMap_cons,
      List.append_assoc]

/-- **C9.** A layout or middleware source file whose logical name cannot
be derived (it resolves to the empty name, e.g. an index-only file) is
warned about and not stored, and no unnamed entity is ever stored:
every stored layout key and every stored middleware name is non-empty;
the warning lists are exactly the files with empty derived names, in
encounter order; and the per-file step on an empty-name file leaves the
collection untouched while appending the file to the warnings — all
total functions, so no crash. -/
theorem unnamed_entities_dropped_with_warning
    (layers : List (String × List String)) (mlayers : List (List String)) :
    (∀ kv ∈ (resolveLayouts layers).1, kv.1 ≠ "") ∧
    (∀ mw ∈ (resolveMiddleware mlayers).1, mw.name ≠ "") ∧
    (resolveLayouts layers).2 =
      layers.flatMap
        (fun l => l.2.filter (fun f => getNameFromPath f (some l.1) == "")) ∧
    (resolveMiddleware mlayers).2 =
      mlayers.flatMap
        (fun files => files.filter (fun f => getNameFromPath f none == "")) ∧
    (∀ (dir : String) (st : List (String × LayoutEntry) × List String)
      (file : String), getNameFromPath file (some dir) = "" →
        layoutFileStep dir st file = (st.1, st.2 ++ [file])) ∧
    (∀ (st : List Middleware × List String) (file : String),
      getNameFromPath file none = "" →
        middlewareFileStep st file = (st.1, st.2 ++ [file])) := by
  refine ⟨layoutLayersFold_names layers ([], []) (by simp), ?_, ?_, ?_, ?_, ?_⟩
  · exact middlewareLayersFold_names mlayers ([], []) (by simp)
  · simpa using layoutLayersFold_warnings layers ([], [])
  · simpa using middlewareLayersFold_warnings mlayers ([], [])
  · intro dir st file h
    unfold layoutFileStep
    rw [if_pos h]
  · intro st file h
    unfold middlewareFileStep
    rw [if_pos h]

/-- **C9**, witness: the index-only layout file `~/layouts/index.vue`
and middleware file `~/middleware/index.ts` derive empty names, are
dropped and warned about. -/
theorem unnamed_entities_dropped_with_warning_witness :
    layoutFileStep "/src/layouts" ([], []) "/src/layouts/index.vue" =
      ([], ["/src/layouts/index.vue"]) ∧
    middlewareFileStep ([], []) "/src/middleware/index.ts" =
      ([], ["/src/middleware/index.ts"]) ∧
    (resolveLayouts [("/src/layouts", ["/src/layouts/index.vue"])]).1 = [] :=
  ⟨(unnamed_entities_dropped_with_warning [] []).2.2.2.2.1 "/src/layouts"
      ([], []) "/src/layouts/index.vue" (by decide),
   (unnamed_entities_dropped_with_warning [] []).2.2.2.2.2
      ([], []) "/src/middleware/index.ts" (by decide),
   by decide⟩

end Nuxt
